import Mathlib

/-!
Verification of the corewa_rs Redcode parser front end.

The data model below is a shallow embedding of `src/load_file.rs`
(`Opcode`, `Modifier`, `AddressMode`, `Field`, `Instruction`, `Core`),
and of the cleaner / deserializer phases.  Machine strings are modelled
as Lean `String`s processed through explicit, structurally recursive
helpers so that every definition is executable by the kernel.
-/

namespace Corewars

/-- The 17 opcode mnemonics of `load_file.rs`. -/

inductive Opcode where
  | Dat | Mov | Add | Sub | Mul | Div | Mod
  | Jmp | Jmz | Jmn | Djn | Cmp | Seq | Sne | Slt | Spl | Nop
deriving DecidableEq, Fintype

/-- The 7 modifier variants of `load_file.rs`. -/

inductive Modifier where
  | A | B | AB | BA | F | X | I
deriving DecidableEq, Fintype

/-- The 8 addressing modes of `load_file.rs`. -/

inductive AddressMode where
  | Immediate | Direct | IndirectA | IndirectB
  | PreDecIndirectA | PreDecIndirectB | PostIncIndirectA | PostIncIndirectB
deriving DecidableEq, Fintype

/-- `Modifier::from_context` (load_file.rs:54-77), translated arm for arm.
The `unreachable!()` arm of the inner match is modelled as `none`, so the
function returns `some m` exactly when the Rust code returns `m` without
panicking. -/

def Modifier.from_context (opcode : Opcode) (a_mode b_mode : AddressMode) :
    Option Modifier :=
  match opcode with
  | .Dat => some .F
  | .Jmp | .Jmz | .Jmn | .Djn | .Spl | .Nop => some .B
  | opcode =>
    if a_mode = AddressMode.Immediate then
      some .AB
    else if b_mode = AddressMode.Immediate then
      some .B
    else
      match opcode with
      | .Mov | .Cmp | .Seq | .Sne => some .I
      | .Slt => some .B
      | .Add | .Sub | .Mul | .Div | .Mod => some .F
      | _ => none

/-- The conversion table of spec §4.4, written from the spec's words
(to be compared with `Modifier.from_context`, which is written from the
source): DAT yields F; JMP/JMZ/JMN/DJN/SPL/NOP yield B; otherwise AB if
field A's mode is Immediate, else B if field B's mode is Immediate, else
I for MOV/CMP/SEQ/SNE, B for SLT, F for ADD/SUB/MUL/DIV/MOD. -/

def specModifier (opcode : Opcode) (a_mode b_mode : AddressMode) : Modifier :=
  match opcode with
  | .Dat => .F
  | .Jmp | .Jmz | .Jmn | .Djn | .Spl | .Nop => .B
  | _ =>
    if a_mode = AddressMode.Immediate then .AB
    else if b_mode = AddressMode.Immediate then .B
    else
      match opcode with
      | .Mov | .Cmp | .Seq | .Sne => .I
      | .Slt => .B
      | _ => .F

/-- `Field` from load_file.rs:97-101: an address mode plus an i32 value
(modelled as `Int`; range side conditions are stated where they matter). -/

structure Field where
  address_mode : AddressMode
  value : Int
deriving DecidableEq

/-- `Field::direct` (load_file.rs:104). -/

def Field.direct (value : Int) : Field := ⟨AddressMode.Direct, value⟩

/-- `Field::immediate` (load_file.rs:111). -/

def Field.immediate (value : Int) : Field := ⟨AddressMode.Immediate, value⟩

/-- `Field`'s derived `Default`: `Direct`, 0. -/

def Field.default : Field := ⟨AddressMode.Direct, 0⟩

/-- `Instruction` from load_file.rs:125-131. -/

structure Instruction where
  opcode : Opcode
  modifier : Modifier
  field_a : Field
  field_b : Field
deriving DecidableEq

/-- `Instruction`'s derived `Default`: `DAT.F $0, $0`. -/

def Instruction.default : Instruction :=
  ⟨Opcode.Dat, Modifier.F, Field.default, Field.default⟩

/-- `Core` from load_file.rs:156-158: an owned sequence of instructions. -/

structure Core where
  instructions : List Instruction

/-- `Core::new` (load_file.rs:161-165): `size` default instructions. -/

def Core.new (core_size : Nat) : Core :=
  ⟨List.replicate core_size Instruction.default⟩

/-- `PartialEq for Core` (load_file.rs:205-216): the loop zips the two
instruction lists and reports inequality only when some zipped pair
differs — pairs beyond the shorter list are never examined. -/

def Core.eq (a b : Core) : Bool :=
  (a.instructions.zip b.instructions).all fun p => p.1 = p.2

/-- ASCII uppercasing of a single character, modelling `str::to_uppercase`
on the ASCII inputs these enums use. -/

def upChar (c : Char) : Char :=
  if 97 ≤ c.toNat ∧ c.toNat ≤ 122 then Char.ofNat (c.toNat - 32) else c

/-- ASCII uppercasing of a string. -/

def upStr (s : String) : String := ⟨s.data.map upChar⟩

/-- Canonical text of an `Opcode`, from the `enum_string!` table
(load_file.rs:5-23). -/

def Opcode.toText : Opcode → String
  | .Dat => "DAT" | .Mov => "MOV" | .Add => "ADD" | .Sub => "SUB"
  | .Mul => "MUL" | .Div => "DIV" | .Mod => "MOD" | .Jmp => "JMP"
  | .Jmz => "JMZ" | .Jmn => "JMN" | .Djn => "DJN" | .Cmp => "CMP"
  | .Seq => "SEQ" | .Sne => "SNE" | .Slt => "SLT" | .Spl => "SPL"
  | .Nop => "NOP"

/-- Lookup of an exact canonical opcode string. -/

def Opcode.lookupText : String → Option Opcode
  | "DAT" => some .Dat | "MOV" => some .Mov | "ADD" => some .Add
  | "SUB" => some .Sub | "MUL" => some .Mul | "DIV" => some .Div
  | "MOD" => some .Mod | "JMP" => some .Jmp | "JMZ" => some .Jmz
  | "JMN" => some .Jmn | "DJN" => some .Djn | "CMP" => some .Cmp
  | "SEQ" => some .Seq | "SNE" => some .Sne | "SLT" => some .Slt
  | "SPL" => some .Spl | "NOP" => some .Nop | _ => none

/-- Modelled from the spec: the string→`Opcode` mapping generated by the
`enum_string!` macro (the macro's definition is not among the sources);
per spec §3 the mapping is case-insensitive, so lookup is performed on the
uppercased input. -/

def Opcode.fromText (s : String) : Option Opcode := Opcode.lookupText (upStr s)

/-- Canonical text of a `Modifier` (load_file.rs:37-45). -/

def Modifier.toText : Modifier → String
  | .A => "A" | .B => "B" | .AB => "AB" | .BA => "BA"
  | .F => "F" | .X => "X" | .I => "I"

/-- Lookup of an exact canonical modifier string. -/

def Modifier.lookupText : String → Option Modifier
  | "A" => some .A | "B" => some .B | "AB" => some .AB | "BA" => some .BA
  | "F" => some .F | "X" => some .X | "I" => some .I | _ => none

/-- Modelled from the spec: the string→`Modifier` mapping of `enum_string!`
(macro definition not among the sources), case-insensitive per spec §3. -/

def Modifier.fromText (s : String) : Option Modifier :=
  Modifier.lookupText (upStr s)

/-- The one-character sigil of an `AddressMode` (load_file.rs:80-89). -/

def AddressMode.sigil : AddressMode → Char
  | .Immediate => '#'
  | .Direct => '$'
  | .IndirectA => '*'
  | .IndirectB => '@'
  | .PreDecIndirectA => '\x7b'
  | .PreDecIndirectB => '<'
  | .PostIncIndirectA => '\x7d'
  | .PostIncIndirectB => '>'

/-- Canonical text of an `AddressMode`: its sigil. -/

def AddressMode.toText (m : AddressMode) : String := ⟨[m.sigil]⟩

/-- Lookup of an exact address-mode sigil string. -/

def AddressMode.lookupText : String → Option AddressMode
  | "#" => some .Immediate | "$" => some .Direct | "*" => some .IndirectA
  | "@" => some .IndirectB | "\x7b" => some .PreDecIndirectA
  | "<" => some .PreDecIndirectB | "\x7d" => some .PostIncIndirectA
  | ">" => some .PostIncIndirectB | _ => none

/-- Modelled from the spec: the string→`AddressMode` mapping of
`enum_string!` (macro definition not among the sources); uppercasing is
the identity on sigils. -/

def AddressMode.fromText (s : String) : Option AddressMode :=
  AddressMode.lookupText (upStr s)

/-! ## Cleaner (phased_parser/phase/clean.rs)

Rust string primitives are modelled as structurally recursive functions on
`List Char`, so the kernel can evaluate them.  The two slice-indexing
expressions in `Info::parse_line` (`split_line[0]`, `split_comment[0]`)
are the only places the cleaner could panic; they are modelled as `none`.
-/

/-- ASCII whitespace, modelling `char::is_whitespace` on the inputs in play. -/

def isWs (c : Char) : Bool :=
  c == ' ' || c == '\t' || c == '\r' || c == '\n'

/-- `str::split` on a separator character (always at least one part). -/

def splitCharAux (sep : Char) : List Char → List Char → List (List Char)
  | [], cur => [cur.reverse]
  | c :: rest, cur =>
    if c == sep then cur.reverse :: splitCharAux sep rest []
    else splitCharAux sep rest (c :: cur)

/-- `str::split_terminator('\n')`: like split, but an empty final part
(from a trailing newline) is omitted, and the empty string yields nothing. -/

def splitTerminatorNl (s : String) : List String :=
  if s.data.isEmpty then []
  else
    let parts := splitCharAux '\n' s.data []
    let parts := if parts.getLast? = some [] then parts.dropLast else parts
    parts.map fun l => ⟨l⟩

/-- `str::trim`. -/

def trimChars (l : List Char) : List Char :=
  ((l.dropWhile (fun c => isWs c)).reverse.dropWhile (fun c => isWs c)).reverse

/-- `str::splitn(2, sep)`: split at the first occurrence of `sep` only. -/

def splitn2Aux (sep : Char) : List Char → List Char → List (List Char)
  | [], cur => [cur.reverse]
  | c :: rest, cur =>
    if c == sep then [cur.reverse, rest] else splitn2Aux sep rest (c :: cur)

/-- `str::splitn(2, char::is_whitespace)`. -/

def splitn2Ws : List Char → List Char → List (List Char)
  | [], cur => [cur.reverse]
  | c :: rest, cur =>
    if isWs c then [cur.reverse, rest] else splitn2Ws rest (c :: cur)

/-- `str::split_whitespace`: maximal non-whitespace runs, no empties. -/

def splitWsAux : List Char → List Char → List (List Char)
  | [], cur => if cur.isEmpty then [] else [cur.reverse]
  | c :: rest, cur =>
    if isWs c then
      if cur.isEmpty then splitWsAux rest []
      else cur.reverse :: splitWsAux rest []
    else splitWsAux rest (c :: cur)

/-- `str::split_whitespace` on a char list. -/

def splitWs (l : List Char) : List (List Char) := splitWsAux l []

/-- `Info` (clean.rs:16-38): program metadata parsed out of comments. -/

structure Info where
  redcode : Option String
  name : Option String
  author : Option String
  date : Option String
  version : Option String
  assertion : Option String
  origin : Option String
deriving DecidableEq

/-- `Info::default()`: every field `None`. -/

def Info.init : Info := ⟨none, none, none, none, none, none, none⟩

/-- The tag dispatch of `Info::parse_line` (clean.rs:100-108); tags are
matched case-sensitively, unknown tags are ignored. -/

def applyTag (info : Info) (tag : String) (value : Option String) : Info :=
  match tag with
  | "redcode" => { info with redcode := value }
  | "name" => { info with name := value }
  | "author" => { info with author := value }
  | "date" => { info with date := value }
  | "version" => { info with version := value }
  | "assertion" => { info with assertion := value }
  | _ => info

/-- `Info::parse_line` (clean.rs:89-117): strip the comment from one
physical line, record tagged metadata, and return the trimmed code
portion (or `none` within the pair when it is empty).  The outer `none`
models a panic at the slice indexing. -/

def parse_line (info : Info) (line : String) : Option (Info × Option String) :=
  match (splitn2Aux ';' line.data []).map trimChars with
  | [] => none
  | code :: rest =>
    let updated : Option Info :=
      match rest with
      | [] => some info
      | comment :: _ =>
        match splitn2Ws comment [] with
        | [] => none
        | tag :: vrest =>
          some (applyTag info ⟨tag⟩ (some ⟨vrest.headD []⟩))
    match updated with
    | none => none
    | some info =>
      let trimmed := trimChars code
      if trimmed.isEmpty then some (info, none) else some (info, some ⟨trimmed⟩)

/-- Accumulator of the loop in `Info::extract_from_string`. -/

structure CleanState where
  metadata : Info
  origin : Option String
  lines : List String
deriving DecidableEq

/-- The `ORG`/`END` handling of `Info::extract_from_string`
(clean.rs:53-79) applied to one comment-free code line. -/

def processCode (st : CleanState) (line : String) : CleanState :=
  let split_line := splitWs line.data
  let token := split_line.head?.map fun w => upStr ⟨w⟩
  if token = some "ORG" ∨ token = some "END" then
    match split_line.get? 1 with
    | some new_origin =>
      match st.origin with
      | some _ => st
      | none =>
        { st with origin := some ⟨new_origin⟩, lines := st.lines ++ [line] }
    | none =>
      if token = some "ORG" then st
      else { st with lines := st.lines ++ [line] }
  else { st with lines := st.lines ++ [line] }

/-- One iteration of the cleaner's line loop: comment stripping via
`parse_line`, then origin/line processing of the surviving code. -/

def cleanStep (st : CleanState) (rawLine : String) : Option CleanState :=
  match parse_line st.metadata rawLine with
  | none => none
  | some (md, none) => some { st with metadata := md }
  | some (md, some code) => some (processCode { st with metadata := md } code)

/-- The cleaner's output (`Cleaned`): retained lines plus metadata. -/

structure Cleaned where
  lines : List String
  metadata : Info
deriving DecidableEq

/-- `Info::extract_from_string` (clean.rs:43-87). -/

def extract_from_string (input : String) : Option Cleaned :=
  match (splitTerminatorNl input).foldlM cleanStep ⟨Info.init, none, []⟩ with
  | none => none
  | some st => some ⟨st.lines, { st.metadata with origin := st.origin }⟩

/-! ## Deserializer (parser/phase/deserialize.rs)

`parse_instruction` and its helpers are translated from deserialize.rs.
The pest grammar file itself is not among the sources, so the line-level
tokenization is modelled from the spec's grammar
(`[Label] Opcode[.Modifier] Field ["," Field]`, §4.3); panics
(`unwrap`/`expect`/`unreachable!`, and integer overflow in
`i32::from_str_radix`) are modelled as `none`. -/

/-- Little-endian base-10 digits of `n`, with explicit fuel so the
definition is structural (fuel `n` suffices). -/

def toDigitsRev (fuel n : Nat) : List Nat :=
  match fuel, n with
  | 0, _ => []
  | _ + 1, 0 => []
  | f + 1, n + 1 => ((n + 1) % 10) :: toDigitsRev f ((n + 1) / 10)

/-- The ASCII digit character for `d < 10`. -/

def digitChar (d : Nat) : Char := Char.ofNat (48 + d)

/-- Decimal rendering of a natural number, most significant digit first. -/

def natChars (n : Nat) : List Char :=
  if n = 0 then ['0'] else (toDigitsRev n n).reverse.map digitChar

/-- Rust `i32` `Display`: optional minus sign plus decimal digits. -/

def intChars (v : Int) : List Char :=
  if v < 0 then '-' :: natChars v.natAbs else natChars v.natAbs

/-- `ToString for Field` (load_file.rs:119-123): sigil then value. -/

def Field.render (f : Field) : String := ⟨f.address_mode.sigil :: intChars f.value⟩

/-- `ToString for Instruction` (load_file.rs:145-154):
`"{opcode} {field_a}, {field_b}"` — note: no modifier is printed. -/

def Instruction.render (i : Instruction) : String :=
  ⟨(Opcode.toText i.opcode).data ++
    (' ' :: ((Field.render i.field_a).data ++
      (',' :: ' ' :: (Field.render i.field_b).data)))⟩

/-- `Core::dump_all` (load_file.rs:175-181): every instruction rendered,
one per line, each followed by a newline. -/

def Core.dump_all (c : Core) : String :=
  ⟨(c.instructions.map fun i => (Instruction.render i).data ++ ['\n']).flatten⟩

/-- Identifier-start characters of the grammar (letters, underscore). -/

def isIdentStart (c : Char) : Bool := c.isAlpha || c == '_'

/-- Identifier characters of the grammar (alphanumeric, underscore). -/

def isIdentCh (c : Char) : Bool := c.isAlphanum || c == '_'

/-- Skip leading whitespace. -/

def skipWs (l : List Char) : List Char := l.dropWhile fun c => isWs c

/-- The address mode denoted by a sigil character, if any. -/

def sigilMode (c : Char) : Option AddressMode := AddressMode.lookupText ⟨[c]⟩

/-- An optional leading `+`/`-` sign of a number token. -/

def parseSign : List Char → Int × List Char
  | [] => (1, [])
  | c :: r =>
    if c = '+' then (1, r)
    else if c = '-' then (-1, r)
    else (1, c :: r)

/-- Numeric value of a list of ASCII digits, most significant first. -/

def digitsVal (l : List Char) : Nat := l.foldl (fun a c => a * 10 + (c.toNat - 48)) 0

/-- Modelled from the spec: one `Field` of the grammar (§4.3):
`[AddressModeSigil] Expr` with `Expr` a signed decimal literal, parsed as
`i32` (out-of-range is a failed `expect`, hence `none`; a missing sigil
defaults to `Direct` as in `parse_field`, deserialize.rs:77-97).
Symbolic label expressions cannot occur post-expansion and are `none`. -/

def parseFieldNum (mode : AddressMode) (sc : Int × List Char) :
    Option (Field × List Char) :=
  if (sc.2.takeWhile fun c => c.isDigit).isEmpty then none
  else
    let n : Int := sc.1 * (digitsVal (sc.2.takeWhile fun c => c.isDigit) : Nat)
    if -(2 ^ 31) ≤ n ∧ n < 2 ^ 31 then
      some (⟨mode, n⟩, sc.2.dropWhile fun c => c.isDigit)
    else none

def parseField (cs : List Char) : Option (Field × List Char) :=
  match cs with
  | [] => parseFieldNum AddressMode.Direct (parseSign [])
  | c :: rest =>
    match sigilMode c with
    | some m => parseFieldNum m (parseSign rest)
    | none => parseFieldNum AddressMode.Direct (parseSign (c :: rest))

/-- `parse_instruction` (deserialize.rs:29-67) after tokenization: field B
defaults to `Field::default()` when absent, and a missing modifier is
computed from context; the `unreachable!()` inside that computation is
propagated as `none`. -/

def parse_instruction (opcode : Opcode) (maybe_modifier : Option Modifier)
    (field_a : Field) (maybe_field_b : Option Field) : Option Instruction :=
  let field_b := maybe_field_b.getD Field.default
  match maybe_modifier with
  | some m => some ⟨opcode, m, field_a, field_b⟩
  | none =>
    (Modifier.from_context opcode field_a.address_mode field_b.address_mode).map
      fun m => ⟨opcode, m, field_a, field_b⟩

/-- Field list of an instruction line: field A, then optionally `,` and
field B, then end of line. -/

def parseFields (op : Opcode) (m? : Option Modifier) (cs : List Char) :
    Option Instruction :=
  match parseField (skipWs cs) with
  | none => none
  | some (fa, rest) =>
    match skipWs rest with
    | c :: r2 =>
      if c = ',' then
        match parseField (skipWs r2) with
        | none => none
        | some (fb, rest2) =>
          if (skipWs rest2).isEmpty then parse_instruction op m? fa (some fb)
          else none
      else none
    | [] => parse_instruction op m? fa none

/-- After the opcode: an optional `.modifier`, then the fields. -/

def parseRest (op : Opcode) (cs : List Char) : Option Instruction :=
  match cs with
  | [] => parseFields op none []
  | c :: r =>
    if c = '.' then
      match Modifier.fromText ⟨r.takeWhile fun c => isIdentCh c⟩ with
      | some m => parseFields op (some m) (r.dropWhile fun c => isIdentCh c)
      | none => none
    else parseFields op none (c :: r)

/-- Modelled from the spec: one grammar line
`[Label] Opcode[.Modifier] Field ["," Field]` (§4.3), yielding `none` for
lines that are not instructions (the deserializer skips those). -/

def parseLine (s : String) : Option Instruction :=
  let cs := skipWs s.data
  let w1 := cs.takeWhile fun c => isIdentCh c
  let r1 := cs.dropWhile fun c => isIdentCh c
  if w1.isEmpty then none
  else
    match Opcode.fromText ⟨w1⟩ with
    | some op => parseRest op r1
    | none =>
      let cs2 := skipWs r1
      let w2 := cs2.takeWhile fun c => isIdentCh c
      let r2 := cs2.dropWhile fun c => isIdentCh c
      if w2.isEmpty then none
      else
        match Opcode.fromText ⟨w2⟩ with
        | some op => parseRest op r2
        | none => none

/-- `deserialize` (deserialize.rs:12-27): each line through the grammar;
non-instruction lines are skipped. -/

def deserialize (lines : List String) : List Instruction :=
  lines.filterMap parseLine

/-! ## Expander (phased_parser/phase/expansion.rs — not among the sources)

Modelled from the spec, §4.2: pass 1 collects label declarations (a bare
identifier on a line of its own, bound to the running instruction index)
and `EQU` definitions (`EQU name tokens…`, the form used by the
phased_parser test) and removes those lines; pass 2 substitutes
`EQU`-bound identifiers (token-sequence substitution, iterated up to a
fixed bound as the spec requires), then replaces each remaining
identifier by the signed distance `target − current`, and fails with
`UnknownSymbol` (name and source line) on identifiers bound by neither
table.  Directive (`ORG`/`END`) lines pass through and consume no
instruction index. -/

/-- The expander's error type (spec §4.2/§6). -/

inductive ExpandError where
  | UnknownSymbol (name : String) (line : String)
deriving DecidableEq

deriving instance DecidableEq for Except

/-- A lexical token of a field expression: a maximal run of
identifier-constituent characters, or a single other character. -/

abbrev Tok := List Char ⊕ Char

/-- Split a character list into maximal identifier-character runs and
single non-identifier characters. -/

def tokenizeAux : List Char → List Char → List Tok
  | [], cur => if cur.isEmpty then [] else [Sum.inl cur.reverse]
  | c :: rest, cur =>
    if isIdentCh c then tokenizeAux rest (c :: cur)
    else
      (if cur.isEmpty then [] else [Sum.inl cur.reverse]) ++
        Sum.inr c :: tokenizeAux rest []

/-- Flatten a token list back into characters. -/

def flattenToks (toks : List Tok) : List Char :=
  toks.flatMap fun t =>
    match t with
    | .inl run => run
    | .inr c => [c]

/-- The symbol table collected by pass 1. -/

structure SymTable where
  labels : List (String × Nat)
  equs : List (String × String)
deriving DecidableEq

/-- `EQU` substitution of a single token: an identifier run bound in the
table is replaced by the tokenization of its replacement text. -/

def equPassTok (equs : List (String × String)) : Tok → List Tok
  | .inl [] => [.inl []]
  | .inl (c0 :: cs) =>
    if isIdentStart c0 then
      match equs.lookup (⟨c0 :: cs⟩ : String) with
      | some rep => tokenizeAux rep.data []
      | none => [.inl (c0 :: cs)]
    else [.inl (c0 :: cs)]
  | .inr c => [.inr c]

/-- One `EQU`-substitution pass over a token list. -/

def equPassToks (equs : List (String × String)) (toks : List Tok) : List Tok :=
  toks.flatMap (equPassTok equs)

/-- Iterated `EQU` substitution with an explicit iteration bound,
stopping early at a fixed point. -/

def expandEqusToks : Nat → List (String × String) → List Tok → List Tok
  | 0, _, toks => toks
  | f + 1, equs, toks =>
    let toks' := equPassToks equs toks
    if toks' = toks then toks else expandEqusToks f equs toks'

/-- Label resolution: each remaining identifier run becomes the signed
distance `target − current`; an unbound identifier is an
`UnknownSymbol` error carrying the name and the source line. -/

def resolveToks (labels : List (String × Nat)) (idx : Nat) (lineStr : String) :
    List Tok → Except ExpandError (List Char)
  | [] => .ok []
  | .inl run :: ts =>
    match run with
    | [] => (resolveToks labels idx lineStr ts).map (run ++ ·)
    | c0 :: _ =>
      if isIdentStart c0 then
        match labels.lookup (⟨run⟩ : String) with
        | some k =>
          (resolveToks labels idx lineStr ts).map
            fun r => intChars ((k : Int) - (idx : Int)) ++ r
        | none => .error (.UnknownSymbol ⟨run⟩ lineStr)
      else (resolveToks labels idx lineStr ts).map (run ++ ·)
  | .inr c :: ts => (resolveToks labels idx lineStr ts).map (c :: ·)

/-- Substitute one field word: `EQU` expansion, then label resolution. -/

def substFieldText (tab : SymTable) (idx : Nat) (lineStr : String)
    (w : List Char) : Except ExpandError (List Char) :=
  resolveToks tab.labels idx lineStr
    (expandEqusToks (tab.equs.length + 1) tab.equs (tokenizeAux w []))

/-- Substitute a list of field words, propagating the first error. -/

def substWords (tab : SymTable) (idx : Nat) (lineStr : String) :
    List (List Char) → Except ExpandError (List (List Char))
  | [] => .ok []
  | w :: ws =>
    match substFieldText tab idx lineStr w with
    | .error e => .error e
    | .ok w' =>
      match substWords tab idx lineStr ws with
      | .error e => .error e
      | .ok ws' => .ok (w' :: ws')

/-- Does this word start with an opcode mnemonic (before any `.modifier`)? -/

def opcodeLike (w : List Char) : Bool :=
  (Opcode.fromText ⟨w.takeWhile fun c => c != '.'⟩).isSome

/-- Join words with single spaces. -/

def joinWords (ws : List (List Char)) : List Char :=
  (List.intersperse [' '] ws).flatten

/-- Split an instruction line into its opcode part (with an optional
leading inline label) and its field words. -/

def instrParts (l : String) : List (List Char) × List (List Char) :=
  match splitWs l.data with
  | [] => ([], [])
  | w0 :: rest =>
    if opcodeLike w0 then ([w0], rest)
    else
      match rest with
      | w1 :: rest2 =>
        if opcodeLike w1 then ([w0, w1], rest2) else ([w0], rest)
      | [] => ([w0], [])

/-- Substitute the field words of one instruction line. -/

def substLine (tab : SymTable) (idx : Nat) (l : String) :
    Except ExpandError String :=
  match substWords tab idx l (instrParts l).2 with
  | .error e => .error e
  | .ok ws => .ok ⟨joinWords ((instrParts l).1 ++ ws)⟩

/-- Is this line an `ORG`/`END` directive line? -/

def isDirective (l : String) : Bool :=
  match splitWs l.data with
  | [] => false
  | w0 :: _ => upStr ⟨w0⟩ == "ORG" || upStr ⟨w0⟩ == "END"

/-- Is this line solely a label declaration? -/

def isLabelOnly (words : List (List Char)) : Bool :=
  match words with
  | [w] =>
    (match w with
     | [] => false
     | c0 :: _ => isIdentStart c0) &&
      w.all (fun c => isIdentCh c) && !(opcodeLike w)
  | _ => false

/-- Is this line an `EQU` definition (`EQU name tokens…`)? -/

def isEquLine (words : List (List Char)) : Bool :=
  match words with
  | w0 :: _ => upStr ⟨w0⟩ == "EQU"
  | [] => false

/-- Pass 1: collect labels and `EQU` definitions, remove their lines,
keep everything else; directive lines consume no instruction index. -/

def collectAux : List String → Nat → SymTable → List String × SymTable
  | [], _, tab => ([], tab)
  | l :: rest, idx, tab =>
    let words := splitWs l.data
    if isEquLine words then
      let tab' :=
        match words with
        | _ :: w1 :: ws =>
          { tab with equs := tab.equs ++ [(⟨w1⟩, ⟨joinWords ws⟩)] }
        | _ => tab
      collectAux rest idx tab'
    else if isDirective l then
      let (ls, t) := collectAux rest idx tab
      (l :: ls, t)
    else if isLabelOnly words then
      let tab' :=
        match words with
        | [w] => { tab with labels := tab.labels ++ [(⟨w⟩, idx)] }
        | _ => tab
      collectAux rest idx tab'
    else
      let (ls, t) := collectAux rest (idx + 1) tab
      (l :: ls, t)

/-- Pass 2: substitute every kept instruction line, tracking the
instruction index; directive lines pass through unchanged. -/

def substLines : List String → Nat → SymTable → Except ExpandError (List String)
  | [], _, _ => .ok []
  | l :: rest, idx, tab =>
    if isDirective l then
      match substLines rest idx tab with
      | .error e => .error e
      | .ok ls => .ok (l :: ls)
    else
      match substLine tab idx l with
      | .error e => .error e
      | .ok l' =>
        match substLines rest (idx + 1) tab with
        | .error e => .error e
        | .ok ls => .ok (l' :: ls)

/-- Pass 1 applied to a whole program: kept lines plus symbol table. -/

def collect (lines : List String) : List String × SymTable :=
  collectAux lines 0 ⟨[], []⟩

/-- The whole expansion phase: pass 1 then pass 2. -/

def expand (lines : List String) : Except ExpandError (List String) :=
  substLines (collect lines).1 0 (collect lines).2

/-- The full parser pipeline Raw→Clean→Expand→Deserialized (phase.rs):
`none` models a (cleaner) panic, `.error` an expansion failure. -/

def pipeline (input : String) : Option (Except ExpandError (List Instruction)) :=
  match extract_from_string input with
  | none => none
  | some c =>
    match expand c.lines with
    | .error e => some (.error e)
    | .ok lines => some (.ok (deserialize lines))

/-- The identifier runs occurring in one field word. -/

def wordRuns (w : List Char) : List String :=
  (tokenizeAux w []).filterMap fun t =>
    match t with
    | .inl [] => none
    | .inl (c0 :: cs) => if isIdentStart c0 then some ⟨c0 :: cs⟩ else none
    | .inr _ => none

/-- The first identifier run a token list that label resolution cannot
resolve, if any (specification-side mirror of `resolveToks`). -/

def firstBadTok (labels : List (String × Nat)) : List Tok → Option String
  | [] => none
  | .inl run :: ts =>
    match run with
    | [] => firstBadTok labels ts
    | c0 :: _ =>
      if isIdentStart c0 then
        match labels.lookup (⟨run⟩ : String) with
        | some _ => firstBadTok labels ts
        | none => some ⟨run⟩
      else firstBadTok labels ts
  | .inr _ :: ts => firstBadTok labels ts

/-- The first unresolvable identifier of a field word, after `EQU`
expansion. -/

def firstBadWord (tab : SymTable) (w : List Char) : Option String :=
  firstBadTok tab.labels
    (expandEqusToks (tab.equs.length + 1) tab.equs (tokenizeAux w []))

/-- The first unresolvable identifier of a word list. -/

def firstBadWords (tab : SymTable) : List (List Char) → Option String
  | [] => none
  | w :: ws =>
    match firstBadWord tab w with
    | some n => some n
    | none => firstBadWords tab ws

/-- The first unresolvable identifier of one instruction line. -/

def firstBadLine (tab : SymTable) (l : String) : Option String :=
  firstBadWords tab (instrParts l).2

/-- The first unresolvable identifier of a kept line sequence, with the
line it occurs in. -/

def firstBadRun (tab : SymTable) : List String → Option (String × String)
  | [] => none
  | l :: rest =>
    if isDirective l then firstBadRun tab rest
    else
      match firstBadLine tab l with
      | some n => some (n, l)
      | none => firstBadRun tab rest

/-- `i32` representability of a field value. -/

def fieldInRange (f : Field) : Prop :=
  -(2 ^ 31) ≤ f.value ∧ f.value < 2 ^ 31

/-- The instruction with its modifier replaced by the context-inferred
one — what the pipeline reconstructs from rendered text. -/

def normalizeInstr (i : Instruction) : Instruction :=
  ⟨i.opcode, specModifier i.opcode i.field_a.address_mode i.field_b.address_mode,
    i.field_a, i.field_b⟩

lemma from_context_eq_spec :
    ∀ (o : Opcode) (a b : AddressMode),
      Modifier.from_context o a b = some (specModifier o a b) := by
  decide

lemma core_eq_of_agree (xs ys : List Instruction)
    (h : ∀ i, i < min xs.length ys.length → xs.get? i = ys.get? i) :
    (xs.zip ys).all (fun p => p.1 = p.2) = true := by
  induction xs generalizing ys with
  | nil => simp [List.zip]
  | cons x xs ih =>
    cases ys with
    | nil => simp [List.zip]
    | cons y ys =>
      have h0 : x = y := by
        have := h 0 (by simp)
        simpa using this
      simp only [List.zip_cons_cons, List.all_cons, h0, decide_eq_true_eq,
        Bool.and_eq_true]
      refine ⟨trivial, ih ys ?_⟩
      intro i hi
      have := h (i + 1) (by
        simp only [List.length_cons] at *
        omega)
      simpa using this

lemma core_new_eq_true (n m : Nat) : Core.eq (Core.new n) (Core.new m) = true := by
  apply core_eq_of_agree
  intro i hi
  simp only [Core.new, List.length_replicate] at hi
  rw [List.get?_eq_getElem?, List.get?_eq_getElem?]
  simp only [Core.new, List.getElem?_replicate]
  simp only [if_pos (by omega : i < n), if_pos (by omega : i < m)]

lemma opcode_fromText_toText (v : Opcode) :
    Opcode.fromText (Opcode.toText v) = some v := by
  revert v; decide

lemma opcode_fromText_of_upStr (v : Opcode) (s : String)
    (h : upStr s = Opcode.toText v) : Opcode.fromText s = some v := by
  unfold Opcode.fromText
  rw [h]
  cases v <;> rfl

lemma opcode_upStr_of_fromText (s : String) (v : Opcode)
    (h : Opcode.fromText s = some v) : upStr s = Opcode.toText v := by
  unfold Opcode.fromText at h
  revert h
  generalize upStr s = t
  unfold Opcode.lookupText
  split <;> intro h
  all_goals first
    | (injection h with h; subst h; rfl)
    | simp at h

lemma modifier_fromText_toText (v : Modifier) :
    Modifier.fromText (Modifier.toText v) = some v := by
  revert v; decide

lemma modifier_fromText_of_upStr (v : Modifier) (s : String)
    (h : upStr s = Modifier.toText v) : Modifier.fromText s = some v := by
  unfold Modifier.fromText
  rw [h]
  cases v <;> rfl

lemma modifier_upStr_of_fromText (s : String) (v : Modifier)
    (h : Modifier.fromText s = some v) : upStr s = Modifier.toText v := by
  unfold Modifier.fromText at h
  revert h
  generalize upStr s = t
  unfold Modifier.lookupText
  split <;> intro h
  all_goals first
    | (injection h with h; subst h; rfl)
    | simp at h

lemma mode_fromText_toText (v : AddressMode) :
    AddressMode.fromText (AddressMode.toText v) = some v := by
  revert v; decide

lemma mode_fromText_of_upStr (v : AddressMode) (s : String)
    (h : upStr s = AddressMode.toText v) : AddressMode.fromText s = some v := by
  unfold AddressMode.fromText
  rw [h]
  cases v <;> rfl

lemma mode_upStr_of_fromText (s : String) (v : AddressMode)
    (h : AddressMode.fromText s = some v) : upStr s = AddressMode.toText v := by
  unfold AddressMode.fromText at h
  revert h
  generalize upStr s = t
  unfold AddressMode.lookupText
  split <;> intro h
  all_goals first
    | (injection h with h; subst h; rfl)
    | simp at h

/-- Claim C1: for every opcode (17 variants) and every pair of address
modes (8×8), `Modifier::from_context` returns exactly the modifier the
§4.4 conversion table dictates, and the internal `unreachable!()` branch
is never reached (the result is always `some`). -/

theorem modifier_from_context_matches_table :
    ∀ (o : Opcode) (a b : AddressMode),
      Modifier.from_context o a b = some (specModifier o a b) :=
  from_context_eq_spec

/-- Claim C6: converting every Opcode/Modifier/AddressMode variant to its
canonical text and parsing it back returns the variant; parsing succeeds
for every spelling whose ASCII uppercasing is the canonical text
(all-uppercase, all-lowercase, mixed case); and any successful parse comes
only from such a spelling, so the two mappings are exact inverses. -/

theorem enum_text_round_trip :
    ((∀ v : Opcode, Opcode.fromText (Opcode.toText v) = some v)
      ∧ (∀ (v : Opcode) (s : String),
          upStr s = Opcode.toText v → Opcode.fromText s = some v)
      ∧ (∀ (s : String) (v : Opcode),
          Opcode.fromText s = some v → upStr s = Opcode.toText v))
    ∧ ((∀ v : Modifier, Modifier.fromText (Modifier.toText v) = some v)
      ∧ (∀ (v : Modifier) (s : String),
          upStr s = Modifier.toText v → Modifier.fromText s = some v)
      ∧ (∀ (s : String) (v : Modifier),
          Modifier.fromText s = some v → upStr s = Modifier.toText v))
    ∧ ((∀ v : AddressMode, AddressMode.fromText (AddressMode.toText v) = some v)
      ∧ (∀ (v : AddressMode) (s : String),
          upStr s = AddressMode.toText v → AddressMode.fromText s = some v)
      ∧ (∀ (s : String) (v : AddressMode),
          AddressMode.fromText s = some v → upStr s = AddressMode.toText v)) :=
  ⟨⟨opcode_fromText_toText, opcode_fromText_of_upStr, opcode_upStr_of_fromText⟩,
   ⟨modifier_fromText_toText, modifier_fromText_of_upStr, modifier_upStr_of_fromText⟩,
   ⟨mode_fromText_toText, mode_fromText_of_upStr, mode_upStr_of_fromText⟩⟩

/-- Witness for C6: the mixed-case spelling `"mOv"` parses to `MOV`. -/

theorem enum_text_round_trip_witness :
    Opcode.fromText "mOv" = some Opcode.Mov :=
  enum_text_round_trip.1.2.1 Opcode.Mov "mOv" (by decide)

/-- Claim C10: `Core` equality compares the zipped instruction lists, so
cores agreeing up to the shorter length compare equal, and in particular
`Core::new n == Core::new m` for all sizes `n`, `m`. -/

theorem core_eq_ignores_extra_length :
    (∀ a b : Core,
        (∀ i, i < min a.instructions.length b.instructions.length →
            a.instructions.get? i = b.instructions.get? i) →
        Core.eq a b = true)
    ∧ (∀ n m : Nat, Core.eq (Core.new n) (Core.new m) = true) :=
  ⟨fun a b h => core_eq_of_agree a.instructions b.instructions h,
   core_new_eq_true⟩

/-- Witness for C10: two default cores of different sizes compare equal. -/

theorem core_eq_ignores_extra_length_witness :
    Core.eq (Core.new 2) (Core.new 3) = true :=
  core_eq_ignores_extra_length.1 (Core.new 2) (Core.new 3) (by decide)

lemma splitn2Aux_ne_nil (sep : Char) :
    ∀ l cur, splitn2Aux sep l cur ≠ [] := by
  intro l
  induction l with
  | nil => intro cur; simp [splitn2Aux]
  | cons c rest ih =>
    intro cur
    unfold splitn2Aux
    split
    · simp
    · exact ih _

lemma splitn2Ws_ne_nil : ∀ l cur, splitn2Ws l cur ≠ [] := by
  intro l
  induction l with
  | nil => intro cur; simp [splitn2Ws]
  | cons c rest ih =>
    intro cur
    unfold splitn2Ws
    split
    · simp
    · exact ih _

lemma parse_line_isSome (info : Info) (line : String) :
    (parse_line info line).isSome := by
  unfold parse_line
  cases h : (splitn2Aux ';' line.data []).map trimChars with
  | nil =>
    exact absurd (List.map_eq_nil_iff.mp h) (splitn2Aux_ne_nil ';' line.data [])
  | cons code rest =>
    cases rest with
    | nil =>
      dsimp only
      split <;> simp
    | cons comment rest2 =>
      cases h2 : splitn2Ws comment [] with
      | nil => exact absurd h2 (splitn2Ws_ne_nil comment [])
      | cons tag vrest =>
        dsimp only
        rw [h2]
        dsimp only
        split <;> simp

lemma cleanStep_isSome (st : CleanState) (raw : String) :
    (cleanStep st raw).isSome := by
  unfold cleanStep
  cases h : parse_line st.metadata raw with
  | none =>
    have hs := parse_line_isSome st.metadata raw
    rw [h] at hs
    simp at hs
  | some p =>
    obtain ⟨md, c⟩ := p
    cases c <;> simp

lemma foldlM_cleanStep_isSome :
    ∀ (l : List String) (st : CleanState),
      (l.foldlM cleanStep st).isSome := by
  intro l
  induction l with
  | nil => intro st; simp [List.foldlM]
  | cons x xs ih =>
    intro st
    have h := cleanStep_isSome st x
    cases hc : cleanStep st x with
    | none => rw [hc] at h; simp at h
    | some st' => simp only [List.foldlM, hc, Option.bind_eq_bind,
        Option.some_bind]; exact ih st'

/-- Claim C9: cleaning is total — `Info::extract_from_string` returns a
`Cleaned` value for every input string (no error path, and neither of its
two slice-indexing panic points can fire, because `splitn` always yields
at least one part). -/

theorem cleaning_is_total :
    ∀ input : String, ∃ c, extract_from_string input = some c := by
  intro input
  unfold extract_from_string
  cases h : (splitTerminatorNl input).foldlM cleanStep ⟨Info.init, none, []⟩ with
  | none =>
    have hs := foldlM_cleanStep_isSome (splitTerminatorNl input) ⟨Info.init, none, []⟩
    rw [h] at hs
    simp at hs
  | some st => exact ⟨_, rfl⟩

/-- Claim C5: the cleaner's concrete origin cases, evaluated: a second
`ORG` is dropped and the first origin kept; `MOV 1, 1` before `END 2`
passes through with origin `"2"`. -/

theorem cleaner_origin_concrete_cases :
    extract_from_string "ORG 5\nORG 2\n" =
        some ⟨["ORG 5"], { Info.init with origin := some "5" }⟩
    ∧ extract_from_string "MOV 1, 1\nEND 2\n" =
        some ⟨["MOV 1, 1", "END 2"], { Info.init with origin := some "2" }⟩ := by
  constructor <;> decide

/-- Counterexample to claim C4 as stated: on `"ORG 5\nORG 2\n"` the
offending duplicate directive line `"ORG 2"` is *not* retained in the
output lines (while the first origin is preserved). -/

theorem duplicate_org_line_not_retained :
    (extract_from_string "ORG 5\nORG 2\n").map (fun c => c.lines.contains "ORG 2")
        = some false
    ∧ (extract_from_string "ORG 5\nORG 2\n").map (fun c => c.metadata.origin)
        = some (some "5") := by
  constructor <;> decide

/-- Claim C4 (amended): when an `ORG`/`END` line carrying a valid second
token is processed after an origin has been recorded, the stored origin is
preserved, the new value is discarded, and the offending line is dropped
from the output sequence (the cleaner state is left unchanged). -/

theorem org_conflict_preserves_and_drops :
    ∀ (st : CleanState) (line : String) (o : String),
      st.origin = some o →
      (((splitWs line.data).head?.map fun w => upStr ⟨w⟩) = some "ORG" ∨
        ((splitWs line.data).head?.map fun w => upStr ⟨w⟩) = some "END") →
      (splitWs line.data).get? 1 ≠ none →
      processCode st line = st := by
  intro st line o ho htok harg
  unfold processCode
  rw [if_pos htok]
  cases h1 : (splitWs line.data).get? 1 with
  | none => exact absurd h1 harg
  | some a => rw [ho]

/-- Witness for C4: a conflicting `ORG 2` after origin `"5"` leaves the
cleaner state untouched. -/

theorem org_conflict_preserves_and_drops_witness :
    processCode ⟨Info.init, some "5", ["ORG 5"]⟩ "ORG 2"
      = ⟨Info.init, some "5", ["ORG 5"]⟩ :=
  org_conflict_preserves_and_drops ⟨Info.init, some "5", ["ORG 5"]⟩ "ORG 2" "5"
    rfl (by decide) (by decide)

/-- Claim C7's divergence, evaluated: the cleaner keeps the code line
`"MOV 1, 1"` that occurs after the terminating `END 0` directive, although
the `Clean` phase's own documentation says text after `END` is removed. -/

theorem line_after_end_retained :
    extract_from_string "END 0\nMOV 1, 1\n" =
      some ⟨["END 0", "MOV 1, 1"], { Info.init with origin := some "0" }⟩ := by
  decide

/-- Claim C8: `"mov 1, 3"` parses to `MOV.I $1, $3` (modifier computed
from context), `"jmp -4"` parses to `JMP.B $-4, $0`, and for every
instruction whose field B is absent, `parse_instruction` fills in
`(Direct, 0)`. -/

theorem deserializer_field_b_defaulting :
    parseLine "mov 1, 3"
        = some ⟨Opcode.Mov, Modifier.I, Field.direct 1, Field.direct 3⟩
    ∧ parseLine "jmp -4"
        = some ⟨Opcode.Jmp, Modifier.B, Field.direct (-4), Field.direct 0⟩
    ∧ ∀ (op : Opcode) (m : Option Modifier) (fa : Field),
        (parse_instruction op m fa none).map Instruction.field_b
          = some (Field.direct 0) := by
  refine ⟨by decide, by decide, ?_⟩
  intro op m fa
  cases m with
  | some m' => rfl
  | none =>
    unfold parse_instruction
    dsimp only
    rw [from_context_eq_spec]
    rfl

/-- Counterexample to claim C2 as stated: the pipeline parses
`"mov.a 1, 2"` to `MOV.A $1, $2`; `Instruction::to_string` renders it
without the modifier as `"MOV $1, $2"`, and re-running the pipeline on the
rendered text yields `MOV.I $1, $2`, a different instruction. -/

theorem modifier_lost_in_round_trip :
    pipeline "mov.a 1, 2\n"
        = some (.ok [⟨Opcode.Mov, Modifier.A, Field.direct 1, Field.direct 2⟩])
    ∧ Core.dump_all ⟨[⟨Opcode.Mov, Modifier.A, Field.direct 1, Field.direct 2⟩]⟩
        = "MOV $1, $2\n"
    ∧ pipeline "MOV $1, $2\n"
        = some (.ok [⟨Opcode.Mov, Modifier.I, Field.direct 1, Field.direct 2⟩])
    ∧ [(⟨Opcode.Mov, Modifier.I, Field.direct 1, Field.direct 2⟩ : Instruction)]
        ≠ [⟨Opcode.Mov, Modifier.A, Field.direct 1, Field.direct 2⟩] := by
  refine ⟨by decide, by decide, by decide, by decide⟩

lemma resolveToks_error_of_some (labels : List (String × Nat)) (idx : Nat)
    (lineStr : String) :
    ∀ (toks : List Tok) (n : String), firstBadTok labels toks = some n →
      resolveToks labels idx lineStr toks = .error (.UnknownSymbol n lineStr) := by
  intro toks
  induction toks with
  | nil => intro n h; simp [firstBadTok] at h
  | cons t ts ih =>
    intro n h
    match t with
    | .inl [] =>
      rw [firstBadTok] at h
      rw [resolveToks, ih n h]
      rfl
    | .inl (c0 :: cs) =>
      rw [firstBadTok] at h
      rw [resolveToks]
      by_cases hs : isIdentStart c0 = true
      · rw [if_pos hs] at h ⊢
        cases hl : labels.lookup (⟨c0 :: cs⟩ : String) with
        | some k =>
          rw [hl] at h
          rw [ih n h]
          rfl
        | none =>
          rw [hl] at h
          injection h with h
          rw [h]
      · rw [if_neg hs] at h ⊢
        rw [ih n h]
        rfl
    | .inr c =>
      rw [firstBadTok] at h
      rw [resolveToks, ih n h]
      rfl

lemma resolveToks_ok_of_none (labels : List (String × Nat)) (idx : Nat)
    (lineStr : String) :
    ∀ toks : List Tok, firstBadTok labels toks = none →
      ∃ out, resolveToks labels idx lineStr toks = .ok out := by
  intro toks
  induction toks with
  | nil => intro _; exact ⟨[], rfl⟩
  | cons t ts ih =>
    intro h
    match t with
    | .inl [] =>
      rw [firstBadTok] at h
      obtain ⟨out, hout⟩ := ih h
      rw [resolveToks, hout]
      exact ⟨_, rfl⟩
    | .inl (c0 :: cs) =>
      rw [firstBadTok] at h
      rw [resolveToks]
      by_cases hs : isIdentStart c0 = true
      · rw [if_pos hs] at h ⊢
        cases hl : labels.lookup (⟨c0 :: cs⟩ : String) with
        | some k =>
          rw [hl] at h
          obtain ⟨out, hout⟩ := ih h
          rw [hout]
          exact ⟨_, rfl⟩
        | none => rw [hl] at h; exact absurd h (by simp)
      · rw [if_neg hs] at h ⊢
        obtain ⟨out, hout⟩ := ih h
        rw [hout]
        exact ⟨_, rfl⟩
    | .inr c =>
      rw [firstBadTok] at h
      obtain ⟨out, hout⟩ := ih h
      rw [resolveToks, hout]
      exact ⟨_, rfl⟩

lemma substFieldText_error_of_some (tab : SymTable) (idx : Nat)
    (lineStr : String) (w : List Char) (n : String)
    (h : firstBadWord tab w = some n) :
    substFieldText tab idx lineStr w = .error (.UnknownSymbol n lineStr) :=
  resolveToks_error_of_some tab.labels idx lineStr _ n h

lemma substFieldText_ok_of_none (tab : SymTable) (idx : Nat)
    (lineStr : String) (w : List Char) (h : firstBadWord tab w = none) :
    ∃ out, substFieldText tab idx lineStr w = .ok out :=
  resolveToks_ok_of_none tab.labels idx lineStr _ h

lemma substWords_error_of_some (tab : SymTable) (idx : Nat) (lineStr : String) :
    ∀ (ws : List (List Char)) (n : String), firstBadWords tab ws = some n →
      substWords tab idx lineStr ws = .error (.UnknownSymbol n lineStr) := by
  intro ws
  induction ws with
  | nil => intro n h; simp [firstBadWords] at h
  | cons w ws ih =>
    intro n h
    rw [firstBadWords] at h
    rw [substWords]
    cases hw : firstBadWord tab w with
    | some n0 =>
      rw [hw] at h
      injection h with h
      rw [substFieldText_error_of_some tab idx lineStr w n0 hw, h]
    | none =>
      rw [hw] at h
      obtain ⟨out, hout⟩ := substFieldText_ok_of_none tab idx lineStr w hw
      rw [hout, ih n h]

lemma substWords_ok_of_none (tab : SymTable) (idx : Nat) (lineStr : String) :
    ∀ ws : List (List Char), firstBadWords tab ws = none →
      ∃ out, substWords tab idx lineStr ws = .ok out := by
  intro ws
  induction ws with
  | nil => intro _; exact ⟨[], rfl⟩
  | cons w ws ih =>
    intro h
    rw [firstBadWords] at h
    cases hw : firstBadWord tab w with
    | some n0 => rw [hw] at h; exact absurd h (by simp)
    | none =>
      rw [hw] at h
      obtain ⟨out, hout⟩ := substFieldText_ok_of_none tab idx lineStr w hw
      obtain ⟨outs, houts⟩ := ih h
      rw [substWords, hout, houts]
      exact ⟨_, rfl⟩

lemma substLine_error_of_some (tab : SymTable) (idx : Nat) (l : String)
    (n : String) (h : firstBadLine tab l = some n) :
    substLine tab idx l = .error (.UnknownSymbol n l) := by
  rw [substLine, substWords_error_of_some tab idx l _ n h]

lemma substLine_ok_of_none (tab : SymTable) (idx : Nat) (l : String)
    (h : firstBadLine tab l = none) :
    ∃ out, substLine tab idx l = .ok out := by
  obtain ⟨out, hout⟩ := substWords_ok_of_none tab idx l _ h
  rw [substLine, hout]
  exact ⟨_, rfl⟩

lemma substLines_error_of_some (tab : SymTable) :
    ∀ (ls : List String) (idx : Nat) (n l : String),
      firstBadRun tab ls = some (n, l) →
      substLines ls idx tab = .error (.UnknownSymbol n l) := by
  intro ls
  induction ls with
  | nil => intro idx n l h; simp [firstBadRun] at h
  | cons l0 rest ih =>
    intro idx n l h
    rw [firstBadRun] at h
    rw [substLines]
    by_cases hd : isDirective l0 = true
    · rw [if_pos hd] at h ⊢
      rw [ih idx n l h]
    · rw [if_neg hd] at h ⊢
      cases hl : firstBadLine tab l0 with
      | some n0 =>
        rw [hl] at h
        injection h with h
        obtain ⟨rfl, rfl⟩ := Prod.mk.inj h
        rw [substLine_error_of_some tab idx l0 n0 hl]
      | none =>
        rw [hl] at h
        obtain ⟨out, hout⟩ := substLine_ok_of_none tab idx l0 hl
        rw [hout, ih (idx + 1) n l h]

lemma inl_mem_equPassToks (equs : List (String × String)) (toks : List Tok)
    (run : List Char) (hlk : equs.lookup (⟨run⟩ : String) = none)
    (hmem : Sum.inl run ∈ toks) : Sum.inl run ∈ equPassToks equs toks := by
  unfold equPassToks
  apply List.mem_flatMap.mpr
  refine ⟨Sum.inl run, hmem, ?_⟩
  cases run with
  | nil => simp [equPassTok]
  | cons c0 cs =>
    by_cases hs : isIdentStart c0 = true
    · simp [equPassTok, hs, hlk]
    · simp [equPassTok, hs]

lemma inl_mem_expandEqusToks (equs : List (String × String)) (run : List Char)
    (hlk : equs.lookup (⟨run⟩ : String) = none) :
    ∀ (f : Nat) (toks : List Tok), Sum.inl run ∈ toks →
      Sum.inl run ∈ expandEqusToks f equs toks := by
  intro f
  induction f with
  | zero => intro toks h; exact h
  | succ f ih =>
    intro toks h
    rw [expandEqusToks]
    split
    · exact h
    · exact ih _ (inl_mem_equPassToks equs toks run hlk h)

lemma firstBadTok_isSome_of_mem (labels : List (String × Nat)) (c0 : Char)
    (cs : List Char) (hs : isIdentStart c0 = true)
    (hlk : labels.lookup (⟨c0 :: cs⟩ : String) = none) :
    ∀ toks : List Tok, Sum.inl (c0 :: cs) ∈ toks →
      (firstBadTok labels toks).isSome := by
  intro toks
  induction toks with
  | nil => intro h; simp at h
  | cons t ts ih =>
    intro hmem
    rcases List.mem_cons.mp hmem with heq | hmem'
    · cases heq.symm
      rw [firstBadTok]
      rw [if_pos hs, hlk]
      simp
    · match t with
      | .inl [] => rw [firstBadTok]; exact ih hmem'
      | .inl (d0 :: ds) =>
        rw [firstBadTok]
        by_cases hs' : isIdentStart d0 = true
        · rw [if_pos hs']
          cases hl : labels.lookup (⟨d0 :: ds⟩ : String) with
          | some k => exact ih hmem'
          | none => simp
        · rw [if_neg hs']; exact ih hmem'
      | .inr c => rw [firstBadTok]; exact ih hmem'

lemma firstBadWord_isSome_of_run (tab : SymTable) (w : List Char) (c0 : Char)
    (cs : List Char) (hs : isIdentStart c0 = true)
    (hlkL : tab.labels.lookup (⟨c0 :: cs⟩ : String) = none)
    (hlkE : tab.equs.lookup (⟨c0 :: cs⟩ : String) = none)
    (hmem : Sum.inl (c0 :: cs) ∈ tokenizeAux w []) :
    (firstBadWord tab w).isSome := by
  apply firstBadTok_isSome_of_mem tab.labels c0 cs hs hlkL
  exact inl_mem_expandEqusToks tab.equs (c0 :: cs) hlkE _ _ hmem

lemma firstBadWords_isSome_of_mem (tab : SymTable) :
    ∀ (ws : List (List Char)) (w : List Char), w ∈ ws →
      (firstBadWord tab w).isSome → (firstBadWords tab ws).isSome := by
  intro ws
  induction ws with
  | nil => intro w h; simp at h
  | cons w0 ws ih =>
    intro w hmem hw
    rw [firstBadWords]
    cases h0 : firstBadWord tab w0 with
    | some n => simp
    | none =>
      rcases List.mem_cons.mp hmem with heq | hmem'
      · rw [heq, h0] at hw
        simp at hw
      · exact ih w hmem' hw

lemma firstBadRun_isSome_of_mem (tab : SymTable) :
    ∀ (ls : List String) (l : String), l ∈ ls → isDirective l = false →
      (firstBadLine tab l).isSome → (firstBadRun tab ls).isSome := by
  intro ls
  induction ls with
  | nil => intro l h; simp at h
  | cons l0 rest ih =>
    intro l hmem hld hl
    rw [firstBadRun]
    by_cases hd : isDirective l0 = true
    · rw [if_pos hd]
      rcases List.mem_cons.mp hmem with heq | hmem'
      · rw [heq] at hld; rw [hld] at hd; exact absurd hd (by simp)
      · exact ih l hmem' hld hl
    · rw [if_neg hd]
      cases h0 : firstBadLine tab l0 with
      | some n => simp
      | none =>
        rcases List.mem_cons.mp hmem with heq | hmem'
        · rw [heq, h0] at hl
          simp at hl
        · exact ih l hmem' hld hl

lemma wordRuns_mem (w : List Char) (n : String) (h : n ∈ wordRuns w) :
    ∃ c0 cs, n = (⟨c0 :: cs⟩ : String) ∧ isIdentStart c0 = true ∧
      Sum.inl (c0 :: cs) ∈ tokenizeAux w [] := by
  unfold wordRuns at h
  obtain ⟨t, hmem, hf⟩ := List.mem_filterMap.mp h
  match t with
  | .inl [] => simp at hf
  | .inl (c0 :: cs) =>
    dsimp only at hf
    by_cases hs : isIdentStart c0 = true
    · rw [if_pos hs] at hf
      injection hf with hf
      exact ⟨c0, cs, hf.symm, hs, hmem⟩
    · rw [if_neg hs] at hf; simp at hf
  | .inr c => simp at hf

/-- Claim C3 (spec-modelled expander): label resolution fails on undefined
identifiers.  First part: the first unresolvable identifier run of the
kept instruction lines determines the result — expansion returns exactly
`UnknownSymbol` with that identifier's name and its source line.  Second
part: whenever any field word of a kept instruction line references an
identifier that is defined neither as a label nor as an `EQU` constant,
expansion fails with an `UnknownSymbol` error (it never succeeds, so no
field is silently zeroed; and the model is total, so it never panics). -/

theorem expander_undefined_symbol_fails :
    (∀ (lines : List String) (n l : String),
        firstBadRun (collect lines).2 (collect lines).1 = some (n, l) →
        expand lines = .error (.UnknownSymbol n l))
    ∧ (∀ (lines : List String) (n l : String) (w : List Char),
        l ∈ (collect lines).1 → isDirective l = false →
        w ∈ (instrParts l).2 → n ∈ wordRuns w →
        (collect lines).2.labels.lookup n = none →
        (collect lines).2.equs.lookup n = none →
        ∃ n' l', expand lines = .error (.UnknownSymbol n' l')) := by
  constructor
  · intro lines n l h
    exact substLines_error_of_some (collect lines).2 (collect lines).1 0 n l h
  · intro lines n l w hl hld hw hn hlkL hlkE
    obtain ⟨c0, cs, rfl, hs, hmem⟩ := wordRuns_mem w n hn
    have h4 := firstBadWord_isSome_of_run (collect lines).2 w c0 cs hs hlkL hlkE hmem
    have h5 := firstBadWords_isSome_of_mem (collect lines).2 (instrParts l).2 w hw h4
    have h6 := firstBadRun_isSome_of_mem (collect lines).2 (collect lines).1 l hl hld h5
    obtain ⟨⟨n', l'⟩, h7⟩ := Option.isSome_iff_exists.mp h6
    exact ⟨n', l',
      substLines_error_of_some (collect lines).2 (collect lines).1 0 n' l' h7⟩

/-- Witness for C3: `"MOV foo, 0"` with `foo` undefined fails with
`UnknownSymbol "foo"` carrying the offending line. -/

theorem expander_undefined_symbol_fails_witness :
    expand ["MOV foo, 0"] = .error (.UnknownSymbol "foo" "MOV foo, 0") :=
  expander_undefined_symbol_fails.1 ["MOV foo, 0"] "foo" "MOV foo, 0" (by decide)

/-! ## Round-trip machinery for the dump text (claim C2) -/

lemma toDigitsRev_lt_ten : ∀ f n d, d ∈ toDigitsRev f n → d < 10 := by
  intro f
  induction f with
  | zero => intro n d h; simp [toDigitsRev] at h
  | succ f ih =>
    intro n d h
    match n with
    | 0 => simp [toDigitsRev] at h
    | m + 1 =>
      rw [toDigitsRev] at h
      rcases List.mem_cons.mp h with heq | hmem
      · rw [heq]; exact Nat.mod_lt _ (by omega)
      · exact ih _ _ hmem

lemma toDigitsRev_foldr : ∀ f n, n ≤ f →
    (toDigitsRev f n).foldr (fun d r => d + 10 * r) 0 = n := by
  intro f
  induction f with
  | zero => intro n h; interval_cases n; simp [toDigitsRev]
  | succ f ih =>
    intro n h
    match n with
    | 0 => simp [toDigitsRev]
    | m + 1 =>
      rw [toDigitsRev]
      rw [List.foldr_cons]
      have hdiv : (m + 1) / 10 < m + 1 := Nat.div_lt_self (by omega) (by omega)
      rw [ih ((m + 1) / 10) (by omega)]
      omega

lemma digitChar_toNat (d : Nat) (h : d < 10) : (digitChar d).toNat = 48 + d := by
  interval_cases d <;> decide

lemma digitChar_class (d : Nat) (h : d < 10) :
    (digitChar d).isDigit = true ∧ isWs (digitChar d) = false ∧
      isIdentCh (digitChar d) = true ∧ isIdentStart (digitChar d) = false ∧
      digitChar d ≠ ';' ∧ digitChar d ≠ '\n' ∧ digitChar d ≠ '.' ∧
      digitChar d ≠ ',' ∧ digitChar d ≠ '+' ∧ digitChar d ≠ '-' ∧
      sigilMode (digitChar d) = none := by
  interval_cases d <;> decide

lemma digitsVal_append (xs : List Char) (c : Char) :
    digitsVal (xs ++ [c]) = digitsVal xs * 10 + (c.toNat - 48) := by
  unfold digitsVal
  rw [List.foldl_append]
  rfl

lemma digitsVal_rev_map : ∀ l : List Nat, (∀ d ∈ l, d < 10) →
    digitsVal (l.reverse.map digitChar) = l.foldr (fun d r => d + 10 * r) 0 := by
  intro l
  induction l with
  | nil => intro _; rfl
  | cons d l ih =>
    intro h
    rw [List.reverse_cons, List.map_append, List.map_cons, List.map_nil,
      digitsVal_append]
    rw [ih fun x hx => h x (List.mem_cons_of_mem d hx)]
    rw [List.foldr_cons, digitChar_toNat d (h d (List.mem_cons_self d l))]
    omega

lemma natChars_val (n : Nat) : digitsVal (natChars n) = n := by
  unfold natChars
  by_cases h : n = 0
  · rw [if_pos h, h]; decide
  · rw [if_neg h]
    rw [digitsVal_rev_map _ fun d hd => toDigitsRev_lt_ten n n d hd]
    exact toDigitsRev_foldr n n le_rfl

lemma natChars_ne_nil (n : Nat) : natChars n ≠ [] := by
  match n with
  | 0 => simp [natChars]
  | m + 1 =>
    unfold natChars
    rw [if_neg (by omega), toDigitsRev]
    simp

lemma natChars_all_digits (n : Nat) :
    ∀ c ∈ natChars n, c.isDigit = true ∧ isWs c = false ∧
      isIdentCh c = true ∧ isIdentStart c = false ∧
      c ≠ ';' ∧ c ≠ '\n' ∧ c ≠ '.' ∧ c ≠ ',' ∧ c ≠ '+' ∧ c ≠ '-' ∧
      sigilMode c = none := by
  intro c hc
  unfold natChars at hc
  by_cases h : n = 0
  · rw [if_pos h] at hc
    simp at hc
    rw [hc]
    exact digitChar_class 0 (by omega)
  · rw [if_neg h] at hc
    obtain ⟨d, hd, rfl⟩ := List.mem_map.mp hc
    exact digitChar_class d (toDigitsRev_lt_ten n n d (List.mem_reverse.mp hd))

lemma opcode_text_class : ∀ op : Opcode,
    (Opcode.toText op).data ≠ [] ∧
    (∀ c ∈ (Opcode.toText op).data,
      isIdentCh c = true ∧ isWs c = false ∧ c ≠ ';' ∧ c ≠ '\n' ∧ c ≠ '.') ∧
    upStr (Opcode.toText op) = Opcode.toText op ∧
    opcodeLike (Opcode.toText op).data = true ∧
    upStr (Opcode.toText op) ≠ "ORG" ∧ upStr (Opcode.toText op) ≠ "END" ∧
    upStr (Opcode.toText op) ≠ "EQU" := by
  decide

lemma sigil_class : ∀ m : AddressMode,
    isWs (AddressMode.sigil m) = false ∧ isIdentCh (AddressMode.sigil m) = false ∧
    isIdentStart (AddressMode.sigil m) = false ∧
    AddressMode.sigil m ≠ ';' ∧ AddressMode.sigil m ≠ '\n' ∧
    AddressMode.sigil m ≠ ',' ∧ (AddressMode.sigil m).isDigit = false ∧
    AddressMode.sigil m ≠ '.' ∧
    AddressMode.sigil m ≠ '+' ∧ AddressMode.sigil m ≠ '-' ∧
    sigilMode (AddressMode.sigil m) = some m := by
  decide

lemma intChars_class (v : Int) :
    ∀ c ∈ intChars v, isWs c = false ∧ isIdentStart c = false ∧
      c ≠ ';' ∧ c ≠ '\n' ∧ c ≠ ',' ∧ c ≠ '.' := by
  intro c hc
  unfold intChars at hc
  have hnat : ∀ c ∈ natChars v.natAbs,
      isWs c = false ∧ isIdentStart c = false ∧
        c ≠ ';' ∧ c ≠ '\n' ∧ c ≠ ',' ∧ c ≠ '.' := by
    intro c hc
    obtain ⟨_, h2, _, h4, h5, h6, h7, h8, _⟩ := natChars_all_digits v.natAbs c hc
    exact ⟨h2, h4, h5, h6, h8, h7⟩
  by_cases hv : v < 0
  · rw [if_pos hv] at hc
    rcases List.mem_cons.mp hc with heq | hmem
    · rw [heq]; decide
    · exact hnat c hmem
  · rw [if_neg hv] at hc
    exact hnat c hc

lemma intChars_ne_nil (v : Int) : intChars v ≠ [] := by
  unfold intChars
  by_cases hv : v < 0
  · rw [if_pos hv]; simp
  · rw [if_neg hv]; exact natChars_ne_nil _

lemma takeWhile_append_exact (p : Char → Bool) :
    ∀ (a b : List Char), (∀ c ∈ a, p c = true) →
      (∀ c, b.head? = some c → p c = false) →
      (a ++ b).takeWhile p = a ∧ (a ++ b).dropWhile p = b := by
  intro a
  induction a with
  | nil =>
    intro b _ hb
    cases b with
    | nil => exact ⟨rfl, rfl⟩
    | cons c bs =>
      have := hb c rfl
      constructor
      · simp [List.takeWhile_cons, this]
      · simp [List.dropWhile_cons, this]
  | cons x a ih =>
    intro b ha hb
    have hx : p x = true := ha x (List.mem_cons_self x a)
    obtain ⟨ht, hd⟩ := ih b (fun c hc => ha c (List.mem_cons_of_mem x hc)) hb
    constructor
    · rw [List.cons_append, List.takeWhile_cons, hx]
      simp [ht]
    · rw [List.cons_append, List.dropWhile_cons, hx]
      simp [hd]

lemma skipWs_cons_of_not (c : Char) (l : List Char) (h : isWs c = false) :
    skipWs (c :: l) = c :: l := by
  simp [skipWs, List.dropWhile_cons, h]

lemma skipWs_cons_of_ws (c : Char) (l : List Char) (h : isWs c = true) :
    skipWs (c :: l) = skipWs l := by
  simp [skipWs, List.dropWhile_cons, h]

lemma parseSign_intChars (v : Int) (rest : List Char) :
    parseSign (intChars v ++ rest)
      = (if v < 0 then -1 else 1, natChars v.natAbs ++ rest) := by
  unfold intChars
  by_cases hv : v < 0
  · rw [if_pos hv, if_pos hv]
    rw [List.cons_append, parseSign]
    rw [if_neg (by decide), if_pos rfl]
  · rw [if_neg hv, if_neg hv]
    cases hn : natChars v.natAbs with
    | nil => exact absurd hn (natChars_ne_nil _)
    | cons c cs =>
      have hc := natChars_all_digits v.natAbs c (hn ▸ List.mem_cons_self c cs)
      rw [List.cons_append, parseSign]
      rw [if_neg (by simp [hc.2.2.2.2.2.2.2.2.1]), if_neg (by simp [hc.2.2.2.2.2.2.2.2.2.1])]

lemma digits_span (v : Int) (rest : List Char)
    (hrest : ∀ c, rest.head? = some c → c.isDigit = false) :
    (natChars v.natAbs ++ rest).takeWhile (fun c => c.isDigit) = natChars v.natAbs
    ∧ (natChars v.natAbs ++ rest).dropWhile (fun c => c.isDigit) = rest :=
  takeWhile_append_exact _ _ _
    (fun c hc => (natChars_all_digits v.natAbs c hc).1) hrest

lemma parseField_render (m : AddressMode) (v : Int) (rest : List Char)
    (hrange : -(2 ^ 31) ≤ v ∧ v < 2 ^ 31)
    (hrest : ∀ c, rest.head? = some c → c.isDigit = false) :
    parseField (AddressMode.sigil m :: (intChars v ++ rest))
      = some (⟨m, v⟩, rest) := by
  obtain ⟨ht, hd⟩ := digits_span v rest hrest
  rw [parseField]
  rw [(sigil_class m).2.2.2.2.2.2.2.2.2.2]
  rw [parseSign_intChars]
  unfold parseFieldNum
  dsimp only
  rw [ht, hd]
  rw [if_neg (by simp [natChars_ne_nil v.natAbs])]
  rw [natChars_val]
  have hval : (if v < 0 then (-1 : Int) else 1) * (v.natAbs : Int) = v := by
    by_cases hv : v < 0
    · rw [if_pos hv]; omega
    · rw [if_neg hv]; omega
  rw [hval, if_pos hrange]

lemma parse_instruction_no_modifier (op : Opcode) (fa fb : Field) :
    parse_instruction op none fa (some fb)
      = some ⟨op, specModifier op fa.address_mode fb.address_mode, fa, fb⟩ := by
  unfold parse_instruction
  dsimp only
  rw [from_context_eq_spec]
  rfl

lemma parseFields_render (op : Opcode) (m? : Option Modifier) (fa fb : Field)
    (ha : fieldInRange fa) (hb : fieldInRange fb) :
    parseFields op m?
      (' ' :: ((Field.render fa).data ++ ',' :: ' ' :: (Field.render fb).data))
      = parse_instruction op m? fa (some fb) := by
  have hfa : (Field.render fa).data
      = fa.address_mode.sigil :: intChars fa.value := rfl
  have hfb : (Field.render fb).data
      = fb.address_mode.sigil :: intChars fb.value := rfl
  rw [hfa, hfb]
  unfold parseFields
  rw [skipWs_cons_of_ws _ _ (by decide)]
  rw [List.cons_append]
  rw [skipWs_cons_of_not _ _ (sigil_class fa.address_mode).1]
  rw [parseField_render fa.address_mode fa.value _ ha
    (fun c hc => by injection hc with hc; rw [← hc]; decide)]
  dsimp only
  rw [skipWs_cons_of_not _ _ (by decide)]
  dsimp only
  rw [if_pos rfl]
  rw [skipWs_cons_of_ws _ _ (by decide)]
  rw [skipWs_cons_of_not _ _ (sigil_class fb.address_mode).1]
  have hnil : intChars fb.value = intChars fb.value ++ [] := (List.append_nil _).symm
  rw [hnil, parseField_render fb.address_mode fb.value []
    hb (fun c hc => by simp at hc)]
  dsimp only
  rw [if_pos (by decide : (skipWs ([] : List Char)).isEmpty = true)]

lemma skipWs_append_of_head (l X : List Char) (hne : l ≠ [])
    (h : ∀ c ∈ l, isWs c = false) : skipWs (l ++ X) = l ++ X := by
  cases l with
  | nil => exact absurd rfl hne
  | cons c t =>
    rw [List.cons_append]
    exact skipWs_cons_of_not c _ (h c (List.mem_cons_self c t))

lemma render_data (i : Instruction) :
    (Instruction.render i).data
      = (Opcode.toText i.opcode).data ++
          ' ' :: ((Field.render i.field_a).data ++
            ',' :: ' ' :: (Field.render i.field_b).data) := rfl

lemma parseLine_render (i : Instruction)
    (ha : fieldInRange i.field_a) (hb : fieldInRange i.field_b) :
    parseLine (Instruction.render i)
      = some ⟨i.opcode,
          specModifier i.opcode i.field_a.address_mode i.field_b.address_mode,
          i.field_a, i.field_b⟩ := by
  obtain ⟨hne, hcls, hup, hopl, _, _, _⟩ := opcode_text_class i.opcode
  obtain ⟨ht, hd⟩ := takeWhile_append_exact (fun c => isIdentCh c)
    (Opcode.toText i.opcode).data
    (' ' :: ((Field.render i.field_a).data ++
        ',' :: ' ' :: (Field.render i.field_b).data))
    (fun c hc => (hcls c hc).1)
    (fun c hc => by injection hc with hc; rw [← hc]; decide)
  unfold parseLine
  rw [render_data]
  rw [skipWs_append_of_head _ _ hne (fun c hc => (hcls c hc).2.1)]
  dsimp only
  rw [ht, hd]
  rw [if_neg (by simp [hne])]
  have hft : Opcode.fromText ⟨(Opcode.toText i.opcode).data⟩ = some i.opcode :=
    opcode_fromText_toText i.opcode
  rw [hft]
  unfold parseRest
  dsimp only
  rw [if_neg (by decide)]
  rw [parseFields_render i.opcode none i.field_a i.field_b ha hb]
  exact parse_instruction_no_modifier i.opcode i.field_a i.field_b

lemma splitn2Aux_no_sep (sep : Char) :
    ∀ (l cur : List Char), (∀ c ∈ l, c ≠ sep) →
      splitn2Aux sep l cur = [cur.reverse ++ l] := by
  intro l
  induction l with
  | nil => intro cur _; simp [splitn2Aux]
  | cons c rest ih =>
    intro cur h
    rw [splitn2Aux]
    rw [if_neg (by simp [h c (List.mem_cons_self c rest)])]
    rw [ih (c :: cur) (fun x hx => h x (List.mem_cons_of_mem c hx))]
    simp

lemma dropWhile_head_not (p : Char → Bool) (l : List Char)
    (h : ∀ c, l.head? = some c → p c = false) : l.dropWhile p = l := by
  cases l with
  | nil => rfl
  | cons c t =>
    rw [List.dropWhile_cons, h c rfl]
    simp

lemma trimChars_id (l : List Char)
    (hh : ∀ c, l.head? = some c → isWs c = false)
    (hl : ∀ c, l.getLast? = some c → isWs c = false) : trimChars l = l := by
  unfold trimChars
  rw [dropWhile_head_not _ l hh]
  rw [dropWhile_head_not _ l.reverse
    (fun c hc => hl c (by rwa [List.head?_reverse] at hc))]
  exact List.reverse_reverse l

lemma parse_line_plain (info : Info) (l : String)
    (hsemi : ∀ c ∈ l.data, c ≠ ';')
    (hh : ∀ c, l.data.head? = some c → isWs c = false)
    (hl : ∀ c, l.data.getLast? = some c → isWs c = false)
    (hne : l.data ≠ []) :
    parse_line info l = some (info, some l) := by
  unfold parse_line
  rw [splitn2Aux_no_sep ';' l.data [] hsemi]
  rw [List.map_cons, List.map_nil]
  rw [List.reverse_nil, List.nil_append]
  rw [trimChars_id l.data hh hl]
  dsimp only
  rw [trimChars_id l.data hh hl]
  rw [if_neg (by simp [hne])]

lemma processCode_keep (st : CleanState) (l : String)
    (h1 : ((splitWs l.data).head?.map fun w => upStr ⟨w⟩) ≠ some "ORG")
    (h2 : ((splitWs l.data).head?.map fun w => upStr ⟨w⟩) ≠ some "END") :
    processCode st l = { st with lines := st.lines ++ [l] } := by
  unfold processCode
  rw [if_neg (by simp [h1, h2])]

lemma splitWsAux_chunk :
    ∀ (w rest cur : List Char), (∀ c ∈ w, isWs c = false) →
      splitWsAux (w ++ rest) cur = splitWsAux rest (w.reverse ++ cur) := by
  intro w
  induction w with
  | nil => intro rest cur _; simp
  | cons c w ih =>
    intro rest cur h
    rw [List.cons_append, splitWsAux]
    rw [if_neg (by simp [h c (List.mem_cons_self c w)])]
    rw [ih rest (c :: cur) (fun x hx => h x (List.mem_cons_of_mem c hx))]
    simp

lemma splitWs_word_space (w rest : List Char) (hne : w ≠ [])
    (hw : ∀ c ∈ w, isWs c = false) :
    splitWs (w ++ ' ' :: rest) = w :: splitWs rest := by
  unfold splitWs
  rw [splitWsAux_chunk w (' ' :: rest) [] hw]
  rw [splitWsAux]
  rw [if_pos (by decide : isWs ' ' = true)]
  rw [List.append_nil]
  rw [if_neg (by simp [hne])]
  simp

lemma splitWs_last_word (w : List Char) (hne : w ≠ [])
    (hw : ∀ c ∈ w, isWs c = false) : splitWs w = [w] := by
  unfold splitWs
  rw [← List.append_nil w]
  rw [splitWsAux_chunk w [] [] hw]
  rw [splitWsAux]
  rw [List.append_nil, List.append_nil]
  rw [if_neg (by simp [hne])]
  simp

lemma fieldRender_class (f : Field) :
    (Field.render f).data ≠ [] ∧
      ∀ c ∈ (Field.render f).data,
        isWs c = false ∧ isIdentStart c = false ∧ c ≠ ';' ∧ c ≠ '\n' := by
  have hdata : (Field.render f).data
      = f.address_mode.sigil :: intChars f.value := rfl
  rw [hdata]
  refine ⟨by simp, ?_⟩
  intro c hc
  rcases List.mem_cons.mp hc with heq | hmem
  · obtain ⟨s1, s2, s3, s4, s5, _⟩ := sigil_class f.address_mode
    rw [heq]
    exact ⟨s1, s3, s4, s5⟩
  · obtain ⟨t1, t2, t3, t4, _⟩ := intChars_class f.value c hmem
    exact ⟨t1, t2, t3, t4⟩

lemma splitWs_render (i : Instruction) :
    splitWs (Instruction.render i).data
      = [(Opcode.toText i.opcode).data,
          (Field.render i.field_a).data ++ [','],
          (Field.render i.field_b).data] := by
  obtain ⟨hne, hcls, _, _, _, _, _⟩ := opcode_text_class i.opcode
  obtain ⟨hfane, hfa⟩ := fieldRender_class i.field_a
  obtain ⟨hfbne, hfb⟩ := fieldRender_class i.field_b
  rw [render_data]
  have hm : (Field.render i.field_a).data ++
        (',' :: ' ' :: (Field.render i.field_b).data)
      = ((Field.render i.field_a).data ++ [',']) ++
          (' ' :: (Field.render i.field_b).data) := by
    simp
  rw [hm]
  rw [splitWs_word_space _ _ hne (fun c hc => (hcls c hc).2.1)]
  rw [splitWs_word_space _ _ (by simp)
    (fun c hc => by
      rcases List.mem_append.mp hc with hmem | hmem
      · exact (hfa c hmem).1
      · simp at hmem; rw [hmem]; decide)]
  rw [splitWs_last_word _ hfbne (fun c hc => (hfb c hc).1)]

lemma render_no_semi_nl (i : Instruction) :
    ∀ c ∈ (Instruction.render i).data, c ≠ ';' ∧ c ≠ '\n' := by
  obtain ⟨_, hcls, _, _, _, _, _⟩ := opcode_text_class i.opcode
  obtain ⟨_, hfa⟩ := fieldRender_class i.field_a
  obtain ⟨_, hfb⟩ := fieldRender_class i.field_b
  intro c hc
  rw [render_data] at hc
  rcases List.mem_append.mp hc with hop | hrest
  · exact ⟨(hcls c hop).2.2.1, (hcls c hop).2.2.2.1⟩
  · rcases List.mem_cons.mp hrest with heq | hrest2
    · rw [heq]; exact ⟨by decide, by decide⟩
    · rcases List.mem_append.mp hrest2 with ha | hb
      · exact ⟨(hfa c ha).2.2.1, (hfa c ha).2.2.2⟩
      · rcases List.mem_cons.mp hb with heq | hb2
        · rw [heq]; exact ⟨by decide, by decide⟩
        · rcases List.mem_cons.mp hb2 with heq | hb3
          · rw [heq]; exact ⟨by decide, by decide⟩
          · exact ⟨(hfb c hb3).2.2.1, (hfb c hb3).2.2.2⟩

lemma render_head_not_ws (i : Instruction) :
    ∀ c, (Instruction.render i).data.head? = some c → isWs c = false := by
  obtain ⟨hne, hcls, _, _, _, _, _⟩ := opcode_text_class i.opcode
  intro c hc
  rw [render_data] at hc
  cases hop : (Opcode.toText i.opcode).data with
  | nil => exact absurd hop hne
  | cons o ot =>
    rw [hop, List.cons_append, List.head?_cons] at hc
    injection hc with hc
    exact hc ▸ (hcls o (hop ▸ List.mem_cons_self o ot)).2.1

lemma render_last_not_ws (i : Instruction) :
    ∀ c, (Instruction.render i).data.getLast? = some c → isWs c = false := by
  obtain ⟨hfbne, hfb⟩ := fieldRender_class i.field_b
  intro c hc
  have hshape : (Instruction.render i).data
      = ((Opcode.toText i.opcode).data ++
          (' ' :: ((Field.render i.field_a).data ++ [',', ' ']))) ++
        (Field.render i.field_b).data := by
    rw [render_data]
    simp
  rw [hshape, List.getLast?_append_of_ne_nil _ hfbne] at hc
  exact (hfb c (List.mem_of_mem_getLast? hc)).1

lemma render_ne_nil (i : Instruction) : (Instruction.render i).data ≠ [] := by
  rw [render_data]
  simp

lemma cleanStep_render (st : CleanState) (i : Instruction) :
    cleanStep st (Instruction.render i)
      = some { st with lines := st.lines ++ [Instruction.render i] } := by
  obtain ⟨_, _, hup, _, hORG, hEND, _⟩ := opcode_text_class i.opcode
  have htok : ((splitWs (Instruction.render i).data).head?.map fun w => upStr ⟨w⟩)
      = some (Opcode.toText i.opcode) := by
    rw [splitWs_render]
    simp only [List.head?_cons, Option.map_some']
    exact congrArg some hup
  have hORG' : Opcode.toText i.opcode ≠ "ORG" := by rw [← hup]; exact hORG
  have hEND' : Opcode.toText i.opcode ≠ "END" := by rw [← hup]; exact hEND
  unfold cleanStep
  rw [parse_line_plain st.metadata (Instruction.render i)
    (fun c hc => (render_no_semi_nl i c hc).1)
    (render_head_not_ws i) (render_last_not_ws i) (render_ne_nil i)]
  dsimp only
  rw [processCode_keep _ _ (by rw [htok]; simp [hORG'])
    (by rw [htok]; simp [hEND'])]

lemma foldlM_render : ∀ (is : List Instruction) (st : CleanState),
    (is.map Instruction.render).foldlM cleanStep st
      = some { st with lines := st.lines ++ is.map Instruction.render } := by
  intro is
  induction is with
  | nil => intro st; simp [List.foldlM]
  | cons i is ih =>
    intro st
    rw [List.map_cons]
    simp only [List.foldlM]
    rw [cleanStep_render st i]
    simp only [Option.bind_eq_bind, Option.some_bind]
    rw [ih]
    simp

lemma splitCharAux_line :
    ∀ (l rest cur : List Char), (∀ c ∈ l, c ≠ '\n') →
      splitCharAux '\n' (l ++ '\n' :: rest) cur
        = (cur.reverse ++ l) :: splitCharAux '\n' rest [] := by
  intro l
  induction l with
  | nil =>
    intro rest cur _
    rw [List.nil_append, splitCharAux]
    rw [if_pos (by decide)]
    simp
  | cons c l ih =>
    intro rest cur h
    rw [List.cons_append, splitCharAux]
    rw [if_neg (by simp [h c (List.mem_cons_self c l)])]
    rw [ih rest (c :: cur) (fun x hx => h x (List.mem_cons_of_mem c hx))]
    simp

lemma splitCharAux_dump :
    ∀ ls : List String, (∀ l ∈ ls, ∀ c ∈ l.data, c ≠ '\n') →
      splitCharAux '\n' ((ls.map fun l => l.data ++ ['\n']).flatten) []
        = (ls.map String.data) ++ [[]] := by
  intro ls
  induction ls with
  | nil => intro _; simp [splitCharAux]
  | cons l ls ih =>
    intro h
    rw [List.map_cons, List.flatten_cons]
    rw [List.append_assoc]
    rw [List.singleton_append]
    rw [splitCharAux_line _ _ [] (h l (List.mem_cons_self l ls))]
    rw [ih (fun x hx => h x (List.mem_cons_of_mem l hx))]
    simp

lemma splitTerminatorNl_dump (ls : List String)
    (h : ∀ l ∈ ls, (∀ c ∈ l.data, c ≠ '\n') ∧ l.data ≠ []) :
    splitTerminatorNl ⟨((ls.map fun l => l.data ++ ['\n']).flatten)⟩ = ls := by
  unfold splitTerminatorNl
  cases ls with
  | nil => simp
  | cons l ls =>
    rw [if_neg (by simp)]
    rw [splitCharAux_dump _ (fun x hx => (h x hx).1)]
    dsimp only
    rw [if_pos (by rw [List.getLast?_concat])]
    rw [List.dropLast_concat]
    rw [List.map_cons, List.map_cons]
    simp only [List.map_map]
    have hid : ((fun l => ({ data := l } : String)) ∘ String.data) = id :=
      funext fun s => rfl
    rw [hid, List.map_id]

lemma extract_dump (is : List Instruction) :
    extract_from_string (Core.dump_all ⟨is⟩)
      = some ⟨is.map Instruction.render, Info.init⟩ := by
  have hsplit : splitTerminatorNl (Core.dump_all ⟨is⟩) = is.map Instruction.render := by
    have hd : Core.dump_all ⟨is⟩
        = ⟨(((is.map Instruction.render).map fun l => l.data ++ ['\n']).flatten)⟩ := by
      unfold Core.dump_all
      rw [List.map_map]
      rfl
    rw [hd]
    exact splitTerminatorNl_dump (is.map Instruction.render)
      (fun l hl => by
        obtain ⟨i, _, rfl⟩ := List.mem_map.mp hl
        exact ⟨fun c hc => (render_no_semi_nl i c hc).2, render_ne_nil i⟩)
  unfold extract_from_string
  rw [hsplit, foldlM_render is ⟨Info.init, none, []⟩]
  simp only [List.nil_append]
  rfl

lemma equPassTok_nil_equs (t : Tok) : equPassTok [] t = [t] := by
  match t with
  | .inl [] => rfl
  | .inl (c0 :: cs) =>
    rw [equPassTok]
    by_cases hs : isIdentStart c0 = true
    · rw [if_pos hs]; rfl
    · rw [if_neg hs]
  | .inr c => rfl

lemma equPassToks_nil_equs (toks : List Tok) : equPassToks [] toks = toks := by
  unfold equPassToks
  induction toks with
  | nil => rfl
  | cons t ts ih =>
    rw [List.flatMap_cons, equPassTok_nil_equs, ih]
    rfl

lemma expandEqusToks_nil_equs (f : Nat) (toks : List Tok) :
    expandEqusToks f [] toks = toks := by
  cases f with
  | zero => rfl
  | succ f =>
    rw [expandEqusToks]
    rw [equPassToks_nil_equs]
    simp

lemma resolveToks_no_identStart (labels : List (String × Nat)) (idx : Nat)
    (s : String) :
    ∀ (l cur : List Char), (∀ c ∈ l, isIdentStart c = false) →
      (∀ c ∈ cur, isIdentStart c = false) →
      resolveToks labels idx s (tokenizeAux l cur) = .ok (cur.reverse ++ l) := by
  intro l
  induction l with
  | nil =>
    intro cur _ hcur
    rw [tokenizeAux]
    by_cases hc : cur.isEmpty = true
    · rw [if_pos hc]
      rw [List.isEmpty_iff.mp hc]
      rfl
    · rw [if_neg hc]
      cases hcur' : cur.reverse with
      | nil =>
        rw [List.reverse_eq_nil_iff] at hcur'
        rw [hcur'] at hc
        exact absurd rfl hc
      | cons c0 cs =>
        have hc0 : isIdentStart c0 = false := by
          apply hcur
          rw [← List.mem_reverse, hcur']
          exact List.mem_cons_self c0 cs
        rw [resolveToks]
        rw [if_neg (by simp [hc0])]
        rw [resolveToks]
        rfl
  | cons c l ih =>
    intro cur hl hcur
    have hl' : ∀ x ∈ l, isIdentStart x = false :=
      fun x hx => hl x (List.mem_cons_of_mem c hx)
    have hcfalse : isIdentStart c = false := hl c (List.mem_cons_self c l)
    rw [tokenizeAux]
    by_cases hch : isIdentCh c = true
    · rw [if_pos hch]
      rw [ih (c :: cur) hl'
        (fun x hx => by
          rcases List.mem_cons.mp hx with heq | hmem
          · rw [heq]; exact hcfalse
          · exact hcur x hmem)]
      simp
    · rw [if_neg hch]
      have hrec := ih [] hl' (by intro x hx; simp at hx)
      by_cases hc : cur.isEmpty = true
      · rw [if_pos hc]
        rw [List.isEmpty_iff.mp hc]
        rw [List.nil_append, resolveToks, hrec]
        rfl
      · rw [if_neg hc]
        cases hcur' : cur.reverse with
        | nil =>
          rw [List.reverse_eq_nil_iff] at hcur'
          rw [hcur'] at hc
          exact absurd rfl hc
        | cons c0 cs =>
          have hc0 : isIdentStart c0 = false := by
            apply hcur
            rw [← List.mem_reverse, hcur']
            exact List.mem_cons_self c0 cs
          rw [List.singleton_append]
          rw [resolveToks]
          rw [if_neg (by simp [hc0])]
          rw [resolveToks, hrec]
          rfl

lemma substFieldText_no_idents (labels : List (String × Nat)) (idx : Nat)
    (s : String) (w : List Char) (hw : ∀ c ∈ w, isIdentStart c = false) :
    substFieldText ⟨labels, []⟩ idx s w = .ok w := by
  unfold substFieldText
  dsimp only
  rw [expandEqusToks_nil_equs]
  have h := resolveToks_no_identStart labels idx s w [] hw
    (by intro c hc; simp at hc)
  simpa using h

lemma fieldWordA_no_idents (i : Instruction) :
    ∀ c ∈ (Field.render i.field_a).data ++ [','], isIdentStart c = false := by
  intro c hc
  rcases List.mem_append.mp hc with hmem | hmem
  · exact ((fieldRender_class i.field_a).2 c hmem).2.1
  · simp at hmem; rw [hmem]; decide

lemma substLine_render (idx : Nat) (i : Instruction) :
    substLine ⟨[], []⟩ idx (Instruction.render i) = .ok (Instruction.render i) := by
  obtain ⟨_, _, _, hopl, _, _, _⟩ := opcode_text_class i.opcode
  have hparts : instrParts (Instruction.render i)
      = ([(Opcode.toText i.opcode).data],
          [(Field.render i.field_a).data ++ [','],
            (Field.render i.field_b).data]) := by
    unfold instrParts
    rw [splitWs_render]
    dsimp only
    rw [if_pos hopl]
  have hfa := substFieldText_no_idents [] idx (Instruction.render i)
    ((Field.render i.field_a).data ++ [',']) (fieldWordA_no_idents i)
  have hfb := substFieldText_no_idents [] idx (Instruction.render i)
    (Field.render i.field_b).data
    (fun c hc => ((fieldRender_class i.field_b).2 c hc).2.1)
  have hjoin : joinWords ([(Opcode.toText i.opcode).data] ++
        [(Field.render i.field_a).data ++ [','],
          (Field.render i.field_b).data]) = (Instruction.render i).data := by
    unfold joinWords
    rw [render_data]
    simp [List.intersperse]
  unfold substLine
  rw [hparts]
  dsimp only
  rw [substWords, hfa]
  dsimp only
  rw [substWords, hfb]
  dsimp only
  rw [substWords]
  dsimp only
  rw [hjoin]

lemma collectAux_render : ∀ (is : List Instruction) (idx : Nat) (tab : SymTable),
    collectAux (is.map Instruction.render) idx tab
      = (is.map Instruction.render, tab) := by
  intro is
  induction is with
  | nil => intro idx tab; rfl
  | cons i is ih =>
    intro idx tab
    obtain ⟨_, _, hup, hopl, hORG, hEND, hEQU⟩ := opcode_text_class i.opcode
    have hequ : isEquLine (splitWs (Instruction.render i).data) = false := by
      rw [splitWs_render]
      unfold isEquLine
      dsimp only
      exact beq_eq_false_iff_ne.mpr hEQU
    have hdir : isDirective (Instruction.render i) = false := by
      unfold isDirective
      rw [splitWs_render]
      dsimp only
      rw [Bool.or_eq_false_iff]
      exact ⟨beq_eq_false_iff_ne.mpr hORG, beq_eq_false_iff_ne.mpr hEND⟩
    have hlab : isLabelOnly (splitWs (Instruction.render i).data) = false := by
      rw [splitWs_render]
      rfl
    rw [List.map_cons, collectAux]
    rw [if_neg (by rw [hequ]; simp)]
    rw [if_neg (by rw [hdir]; simp)]
    rw [if_neg (by rw [hlab]; simp)]
    dsimp only
    rw [ih (idx + 1) tab]

lemma substLines_render : ∀ (is : List Instruction) (idx : Nat),
    substLines (is.map Instruction.render) idx ⟨[], []⟩
      = .ok (is.map Instruction.render) := by
  intro is
  induction is with
  | nil => intro idx; rfl
  | cons i is ih =>
    intro idx
    have hdir : isDirective (Instruction.render i) = false := by
      obtain ⟨_, _, _, _, hORG, hEND, _⟩ := opcode_text_class i.opcode
      unfold isDirective
      rw [splitWs_render]
      dsimp only
      rw [Bool.or_eq_false_iff]
      exact ⟨beq_eq_false_iff_ne.mpr hORG, beq_eq_false_iff_ne.mpr hEND⟩
    rw [List.map_cons, substLines]
    rw [if_neg (by simp [hdir])]
    rw [substLine_render idx i]
    dsimp only
    rw [ih (idx + 1)]

lemma expand_render (is : List Instruction) :
    expand (is.map Instruction.render) = .ok (is.map Instruction.render) := by
  unfold expand collect
  rw [collectAux_render]
  exact substLines_render is 0

lemma deserialize_render : ∀ is : List Instruction,
    (∀ i ∈ is, fieldInRange i.field_a ∧ fieldInRange i.field_b) →
    deserialize (is.map Instruction.render) = is.map normalizeInstr := by
  intro is
  induction is with
  | nil => intro _; rfl
  | cons i is ih =>
    intro h
    have hi := h i (List.mem_cons_self i is)
    have hrest := ih fun x hx => h x (List.mem_cons_of_mem i hx)
    rw [List.map_cons, List.map_cons]
    unfold deserialize
    rw [List.filterMap_cons]
    rw [parseLine_render i hi.1 hi.2]
    dsimp only
    unfold deserialize at hrest
    rw [hrest]
    rfl

/-- Claim C2 (amended): re-running the pipeline on the text rendered by
`Instruction::to_string` (via `Core::dump_all`) reproduces the instruction
sequence with each modifier replaced by the context-inferred one — the
rendering omits the modifier — and hence reproduces the sequence
identically exactly when every instruction's modifier already equals its
context-inferred modifier (in particular for any sequence parsed from
modifier-less source, so text→struct→text→struct is idempotent after the
first normalization). -/

theorem dump_text_round_trip :
    (∀ is : List Instruction,
        (∀ i ∈ is, fieldInRange i.field_a ∧ fieldInRange i.field_b) →
        pipeline (Core.dump_all ⟨is⟩) = some (.ok (is.map normalizeInstr)))
    ∧ (∀ is : List Instruction,
        (∀ i ∈ is, fieldInRange i.field_a ∧ fieldInRange i.field_b
          ∧ i.modifier = specModifier i.opcode i.field_a.address_mode
              i.field_b.address_mode) →
        pipeline (Core.dump_all ⟨is⟩) = some (.ok is)) := by
  have hmain : ∀ is : List Instruction,
      (∀ i ∈ is, fieldInRange i.field_a ∧ fieldInRange i.field_b) →
      pipeline (Core.dump_all ⟨is⟩) = some (.ok (is.map normalizeInstr)) := by
    intro is h
    unfold pipeline
    rw [extract_dump]
    dsimp only
    rw [expand_render]
    dsimp only
    rw [deserialize_render is h]
  refine ⟨hmain, ?_⟩
  intro is h
  rw [hmain is fun i hi => ⟨(h i hi).1, (h i hi).2.1⟩]
  have hid : is.map normalizeInstr = is := by
    induction is with
    | nil => rfl
    | cons i is ih =>
      rw [List.map_cons]
      rw [ih fun x hx => h x (List.mem_cons_of_mem i hx)]
      have hmod := (h i (List.mem_cons_self i is)).2.2
      unfold normalizeInstr
      rw [← hmod]
  rw [hid]

/-- Witness for C2's amended theorem: a `MOV.I $1, $2` (whose modifier is
the context default) survives dump and re-parse unchanged. -/

theorem dump_text_round_trip_witness :
    pipeline (Core.dump_all
        ⟨[⟨Opcode.Mov, Modifier.I, Field.direct 1, Field.direct 2⟩]⟩)
      = some (.ok [⟨Opcode.Mov, Modifier.I, Field.direct 1, Field.direct 2⟩]) :=
  dump_text_round_trip.2
    [⟨Opcode.Mov, Modifier.I, Field.direct 1, Field.direct 2⟩]
    (by
      intro i hi
      simp only [List.mem_singleton] at hi
      subst hi
      exact ⟨⟨by decide, by decide⟩, ⟨by decide, by decide⟩, rfl⟩)

end Corewars
